import Mathlib

/-!
Verification of the thsensai IOC extraction/merge pipeline.

This file gives a shallow embedding of the core data model and operations of
`thsensai/ioc.py` and `thsensai/infer.py`:

* `IOC` with its pydantic field validators (`normalize_type`,
  `normalize_value`, `normalize_context`),
* the merge pass `deduplicate_and_combine_context`,
* the per-chunk pipeline (`invoke_model`, `extend`, `generate`),
* the CSV serialization (`as_csv`) and import (`extend_from_csv`).

Python built-ins used by the source (`str.strip`, `str.replace`, `str.lower`,
`" | ".join`, the stable `sorted`, and the `csv` module) are embedded as
executable Lean functions over `List Char` / `String`.
-/

namespace Thsensai

/-- Whitespace characters removed by Python `str.strip()` (the ASCII subset:
space, tab, newline, carriage return, vertical tab, form feed). -/
def pyWs (c : Char) : Bool :=
  c == ' ' || c == '\t' || c == '\n' || c == '\r' ||
    c == Char.ofNat 11 || c == Char.ofNat 12

/-- Embedding of Python `str.strip()` on the character list: drop leading and
trailing whitespace. -/
def stripL (l : List Char) : List Char :=
  ((l.dropWhile pyWs).reverse.dropWhile pyWs).reverse

/-- Embedding of Python `str.strip()`. -/
def pstrip (s : String) : String :=
  ⟨stripL s.data⟩

/-- Fuel-driven scanner for `replaceL`; the fuel is an upper bound on the
number of characters still to be consumed, so it never runs out when started
with the input length. -/
def replaceGo (p r : List Char) : Nat → List Char → List Char
  | _, [] => []
  | 0, c :: cs => c :: cs
  | fuel + 1, c :: cs =>
    if !p.isEmpty && p.isPrefixOf (c :: cs) then
      r ++ replaceGo p r fuel (cs.drop (p.length - 1))
    else
      c :: replaceGo p r fuel cs

/-- Embedding of Python `str.replace(pat, rep)` on character lists: replace all
non-overlapping occurrences of `p`, scanning left to right, and do not rescan
the replacement text. (Python's behavior for an empty pattern is not needed
here: every pattern used by the source is non-empty, and for an empty pattern
this embedding is the identity.) -/
def replaceL (p r l : List Char) : List Char :=
  replaceGo p r l.length l

/-- Embedding of Python `str.replace`. -/
def pyReplace (s pat rep : String) : String :=
  ⟨replaceL pat.data rep.data s.data⟩

/-- Embedding of Python `str.lower()` (ASCII case folding). -/
def pyLower (s : String) : String :=
  ⟨s.data.map Char.toLower⟩

/-- Field validator `IOC.normalize_type`:
`v.replace("_", " ").strip().lower()`. -/
def normalize_type (v : String) : String :=
  pyLower (pstrip (pyReplace v "_" " "))

/-- Field validator `IOC.normalize_value`: the six sequential defanging
substitutions, in source order. -/
def normalize_value (v : String) : String :=
  let v1 := pyReplace v "[.]" "."
  let v2 := pyReplace v1 "[:]" ":"
  let v3 := pyReplace v2 "hxxp://" "http://"
  let v4 := pyReplace v3 "hxxps://" "https://"
  let v5 := pyReplace v4 "hXXp://" "http://"
  pyReplace v5 "hXXps://" "https://"

/-- Field validator `IOC.normalize_context`: strip surrounding whitespace. -/
def normalize_context (v : String) : String :=
  pstrip v

/-- A single Indicator of Compromise: the `IOC` pydantic model. -/
structure IOC where
  type : String
  value : String
  context : String
deriving DecidableEq, Repr

/-- Construction of an `IOC` from raw field strings, applying the three
pydantic field validators (they run at construction time). -/
def mkIOC (t v c : String) : IOC :=
  ⟨normalize_type t, normalize_value v, normalize_context c⟩

/-! ### The merge pass `IOCs.deduplicate_and_combine_context` -/

/-- First-seen-order list of distinct keys: the iteration order of the
`defaultdict` built by grouping (Python dicts preserve insertion order). -/
def uniqKeys : List String → List String
  | [] => []
  | v :: rest => v :: (uniqKeys rest).filter (fun w => w != v)

/-- The group of entities sharing the value `v`, in encounter order. -/
def valueGroup (l : List IOC) (v : String) : List IOC :=
  l.filter (fun i => i.value == v)

/-- Embedding of `" | ".join`. -/
def joinSep : List String → String
  | [] => ""
  | [s] => s
  | s :: q :: rest => s ++ " | " ++ joinSep (q :: rest)

/-- The non-empty stripped contexts of a group, in encounter order:
the generator `ioc.context.strip() for ioc in iocs_group if ioc.context.strip()`. -/
def contextParts (g : List IOC) : List String :=
  (g.map (fun i => pstrip i.context)).filter (fun s => s != "")

/-- Combined context of a duplicate group:
`" | ".join(ioc.context.strip() for ioc in iocs_group if ioc.context.strip())`. -/
def combined_context (g : List IOC) : String :=
  joinSep (contextParts g)

/-- Merge one value group: a singleton group is kept as is; a larger group is
collapsed to `iocs_group[0].model_copy(update=dict(context=combined_context))`. -/
def mergeGroup : List IOC → List IOC
  | [] => []
  | [i] => [i]
  | i :: j :: rest => [⟨i.type, i.value, combined_context (i :: j :: rest)⟩]

/-- Comparison used by the final `sorted(key=lambda ioc: ioc.type)`: strict
lexicographic order on the key strings (Python compares strings by code
point). This is exactly the order `String.lt`, decided on the character
lists so that it evaluates. -/
def typeLt (i j : IOC) : Bool :=
  decide (i.type.data < j.type.data)

/-- Stable insertion of an entity into a list sorted by `type`: the entity goes
after every element whose `type` is strictly smaller, and before the first
element whose `type` is not smaller (so after nothing equal). -/
def insertByType (i : IOC) : List IOC → List IOC
  | [] => [i]
  | j :: rest =>
    if typeLt j i then j :: insertByType i rest
    else i :: j :: rest

/-- Embedding of Python `sorted(key=lambda ioc: ioc.type)`: Python `sorted` is
a stable sort by the key, embedded here as stable insertion sort (any two
stable sorts by the same key agree extensionally). -/
def sortByType : List IOC → List IOC
  | [] => []
  | i :: rest => insertByType i (sortByType rest)

/-- The deduplicated representatives, one per distinct value in first-seen
order, before the final sort. -/
def reps (l : List IOC) : List IOC :=
  (uniqKeys (l.map (fun i => i.value))).flatMap (fun v => mergeGroup (valueGroup l v))

/-- The merge pass `IOCs.deduplicate_and_combine_context`: group by value in
first-seen order, merge each group, then stably sort the representatives by
`type` ascending. -/
def deduplicate_and_combine_context (l : List IOC) : List IOC :=
  sortByType (reps l)

/-! ### Order facts for the sort key -/

/-- The ordering `typeLt` decides is exactly the strict order on the `type`
strings. -/
theorem typeLt_iff (i j : IOC) : typeLt i j = true ↔ i.type < j.type := by
  simp [typeLt, String.lt_iff_toList_lt]

theorem typeLt_eq_false_iff (i j : IOC) : typeLt i j = false ↔ j.type ≤ i.type := by
  rw [← Bool.not_eq_true, not_iff_comm, typeLt_iff, not_le]

/-- The non-strict sort order on entities. -/
def typeLe (a b : IOC) : Prop := a.type ≤ b.type

/-! ### Lemmas about the stable sort -/

theorem insertByType_perm (i : IOC) (s : List IOC) :
    List.Perm (insertByType i s) (i :: s) := by
  induction s with
  | nil => exact List.Perm.refl _
  | cons j rest ih =>
    rw [insertByType]
    cases hlt : typeLt j i
    · rw [if_neg Bool.false_ne_true]
    · rw [if_pos rfl]
      exact (ih.cons j).trans (List.Perm.swap i j rest)

theorem sortByType_perm (l : List IOC) : List.Perm (sortByType l) l := by
  induction l with
  | nil => exact List.Perm.refl _
  | cons i rest ih =>
    rw [sortByType]
    exact (insertByType_perm i (sortByType rest)).trans (ih.cons i)

theorem insertByType_filter_eq (i : IOC) (s : List IOC) (k : String)
    (hik : i.type = k) :
    (insertByType i s).filter (fun x => x.type == k) =
      i :: s.filter (fun x => x.type == k) := by
  induction s with
  | nil => simp [insertByType, hik]
  | cons j rest ih =>
    rw [insertByType]
    by_cases h : typeLt j i
    · have hj : j.type ≠ k := by
        rw [← hik]
        exact ne_of_lt ((typeLt_iff j i).mp h)
      simp [h, List.filter_cons, hj, ih]
    · simp [h, List.filter_cons, hik]

theorem insertByType_filter_ne (i : IOC) (s : List IOC) (k : String)
    (hik : i.type ≠ k) :
    (insertByType i s).filter (fun x => x.type == k) =
      s.filter (fun x => x.type == k) := by
  induction s with
  | nil => simp [insertByType, hik]
  | cons j rest ih =>
    rw [insertByType]
    by_cases h : typeLt j i
    · simp [h, List.filter_cons, ih]
    · simp [h, List.filter_cons, hik]

/-- Stability of the embedded sort, in filter form: for every key, the
entities with that key appear in the output exactly as they appear in the
input. -/
theorem sortByType_filter (l : List IOC) (k : String) :
    (sortByType l).filter (fun x => x.type == k) =
      l.filter (fun x => x.type == k) := by
  induction l with
  | nil => rfl
  | cons i rest ih =>
    rw [sortByType]
    by_cases hik : i.type = k
    · rw [insertByType_filter_eq i _ k hik, ih]
      simp [List.filter_cons, hik]
    · rw [insertByType_filter_ne i _ k hik, ih]
      simp [List.filter_cons, hik]

theorem insertByType_sorted (i : IOC) (s : List IOC)
    (hs : s.Pairwise typeLe) : (insertByType i s).Pairwise typeLe := by
  induction s with
  | nil => simp [insertByType, List.pairwise_singleton]
  | cons j rest ih =>
    rw [insertByType]
    rw [List.pairwise_cons] at hs
    cases hlt : typeLt j i
    · rw [if_neg Bool.false_ne_true, List.pairwise_cons]
      have hij : typeLe i j := (typeLt_eq_false_iff j i).mp hlt
      refine ⟨?_, List.pairwise_cons.mpr hs⟩
      intro x hx
      rcases List.mem_cons.mp hx with hx | hx
      · rw [hx]; exact hij
      · exact le_trans hij (hs.1 x hx)
    · rw [if_pos rfl, List.pairwise_cons]
      refine ⟨?_, ih hs.2⟩
      intro x hx
      rcases List.mem_cons.mp ((insertByType_perm i rest).mem_iff.mp hx) with hx | hx
      · rw [hx]
        exact le_of_lt ((typeLt_iff j i).mp hlt)
      · exact hs.1 x hx

/-- The sort output is sorted ascending by `type`. -/
theorem sortByType_sorted (l : List IOC) : (sortByType l).Pairwise typeLe := by
  induction l with
  | nil => exact List.Pairwise.nil
  | cons i rest ih => exact insertByType_sorted i _ ih

/-- Sorting an already sorted list changes nothing. -/
theorem sortByType_of_sorted {l : List IOC} (h : l.Pairwise typeLe) :
    sortByType l = l := by
  induction l with
  | nil => rfl
  | cons i rest ih =>
    rw [List.pairwise_cons] at h
    rw [sortByType, ih h.2]
    cases rest with
    | nil => rfl
    | cons j rest2 =>
      rw [insertByType]
      have : typeLt j i = false := by
        rw [typeLt_eq_false_iff]
        exact h.1 j (List.mem_cons_self j rest2)
      rw [this]
      simp

/-- Two lists sorted by `type` whose per-key filters agree are equal: this is
the uniqueness of a stable sort result. -/
theorem sorted_filter_ext :
    ∀ (S T : List IOC), S.Pairwise typeLe → T.Pairwise typeLe →
      (∀ k, S.filter (fun i => i.type == k) = T.filter (fun i => i.type == k)) →
      S = T
  | [], [], _, _, _ => rfl
  | [], t :: T, _, _, h => by
    have := h t.type
    simp [List.filter_cons] at this
  | s :: S, [], _, _, h => by
    have := h s.type
    simp [List.filter_cons] at this
  | s :: S, t :: T, hS, hT, h => by
    have hst : s.type = t.type := by
      have hsT : s ∈ (t :: T).filter (fun i => i.type == s.type) := by
        rw [← h s.type]
        simp [List.filter_cons]
      have htS : t ∈ (s :: S).filter (fun i => i.type == t.type) := by
        rw [h t.type]
        simp [List.filter_cons]
      have hs1 : s ∈ t :: T := List.mem_of_mem_filter hsT
      have ht1 : t ∈ s :: S := List.mem_of_mem_filter htS
      rcases List.mem_cons.mp hs1 with he | hs2
      · rw [he]
      · rcases List.mem_cons.mp ht1 with he | ht2
        · rw [he]
        · exact le_antisymm ((List.pairwise_cons.mp hS).1 t ht2)
            ((List.pairwise_cons.mp hT).1 s hs2)
    have h1 := h s.type
    simp only [List.filter_cons, beq_self_eq_true, if_pos, beq_iff_eq, hst.symm,
      if_true] at h1
    have hhead : s = t := (List.cons_eq_cons.mp h1).1
    have htail : ∀ k, S.filter (fun i => i.type == k) = T.filter (fun i => i.type == k) := by
      intro k
      by_cases hk : k = s.type
      · rw [hk]
        exact (List.cons_eq_cons.mp h1).2
      · have h2 := h k
        have hsk : ¬ ((s.type == k) = true) := by
          simp only [beq_iff_eq]
          exact fun he => hk he.symm
        have htk : ¬ ((t.type == k) = true) := by
          simp only [beq_iff_eq]
          exact fun he => hk (hst ▸ he).symm
        simp only [List.filter_cons] at h2
        rw [if_neg hsk, if_neg htk] at h2
        exact h2
    rw [hhead, sorted_filter_ext S T (List.Pairwise.sublist (List.sublist_cons_self s S) hS)
      (List.Pairwise.sublist (List.sublist_cons_self t T) hT) htail]

/-! ### Lemmas about the grouping keys -/

theorem mem_uniqKeys {v : String} : ∀ {l : List String}, v ∈ uniqKeys l ↔ v ∈ l := by
  intro l
  induction l with
  | nil => simp [uniqKeys]
  | cons w rest ih =>
    rw [uniqKeys]
    by_cases hv : v = w
    · simp [hv]
    · simp only [List.mem_cons, List.mem_filter, ih, hv, false_or]
      constructor
      · intro h
        exact h.1
      · intro h
        exact ⟨h, by simp [hv]⟩

theorem uniqKeys_nodup : ∀ (l : List String), (uniqKeys l).Nodup := by
  intro l
  induction l with
  | nil => exact List.nodup_nil
  | cons w rest ih =>
    rw [uniqKeys, List.nodup_cons]
    refine ⟨?_, List.Nodup.filter _ ih⟩
    intro h
    have := (List.mem_filter.mp h).2
    simp at this

theorem uniqKeys_of_nodup : ∀ {l : List String}, l.Nodup → uniqKeys l = l := by
  intro l h
  induction l with
  | nil => rfl
  | cons w rest ih =>
    rw [List.nodup_cons] at h
    rw [uniqKeys, ih h.2, List.filter_eq_self.mpr]
    intro x hx
    simp only [bne_iff_ne, ne_eq, decide_eq_true_eq]
    intro he
    exact h.1 (he ▸ hx)

theorem uniqKeys_append : ∀ (x y : List String),
    uniqKeys (x ++ y) = uniqKeys x ++ (uniqKeys y).filter (fun w => decide (w ∉ x)) := by
  intro x
  induction x with
  | nil =>
    intro y
    simp [uniqKeys, List.filter_eq_self]
  | cons v x ih =>
    intro y
    rw [List.cons_append, uniqKeys, ih, List.filter_append, uniqKeys, List.cons_append]
    congr 1
    congr 1
    rw [List.filter_filter]
    apply List.filter_congr
    intro w _
    by_cases h1 : w = v
    · simp [h1]
    · by_cases h2 : w ∈ x
      · simp [h1, h2]
      · simp [h1, h2]

/-! ### Lemmas about group merging and the representatives -/

/-- Placeholder entity used only to make head extraction total; never an
actual result. -/
def dummyIOC : IOC := ⟨"", "", ""⟩

/-- The merged representative of the value `v` in `l`. -/
def mergedOf (l : List IOC) (v : String) : IOC :=
  (mergeGroup (valueGroup l v)).headD dummyIOC

theorem mergeGroup_of_ne_nil {g : List IOC} (h : g ≠ []) :
    ∃ e, mergeGroup g = [e] ∧ e.type = (g.headD dummyIOC).type ∧
      e.value = (g.headD dummyIOC).value := by
  match g, h with
  | [i], _ => exact ⟨i, rfl, rfl, rfl⟩
  | i :: j :: rest, _ => exact ⟨_, rfl, rfl, rfl⟩

theorem valueGroup_ne_nil {l : List IOC} {v : String} (h : v ∈ l.map (fun i => i.value)) :
    valueGroup l v ≠ [] := by
  rcases List.mem_map.mp h with ⟨i, hi, hiv⟩
  intro hnil
  have : i ∈ valueGroup l v := by
    rw [valueGroup, List.mem_filter]
    exact ⟨hi, by simp [hiv]⟩
  rw [hnil] at this
  exact List.not_mem_nil i this

theorem mem_valueGroup_value {l : List IOC} {v : String} {i : IOC}
    (h : i ∈ valueGroup l v) : i.value = v := by
  have := (List.mem_filter.mp h).2
  simpa using this

theorem mergeGroup_valueGroup_eq {l : List IOC} {v : String}
    (h : v ∈ l.map (fun i => i.value)) :
    mergeGroup (valueGroup l v) = [mergedOf l v] := by
  rcases mergeGroup_of_ne_nil (valueGroup_ne_nil h) with ⟨e, he, _, _⟩
  rw [mergedOf, he]
  rfl

theorem mergedOf_value {l : List IOC} {v : String}
    (h : v ∈ l.map (fun i => i.value)) : (mergedOf l v).value = v := by
  rcases mergeGroup_of_ne_nil (valueGroup_ne_nil h) with ⟨e, he, _, hv⟩
  have hg : valueGroup l v ≠ [] := valueGroup_ne_nil h
  have hhead : (valueGroup l v).headD dummyIOC ∈ valueGroup l v := by
    cases hval : valueGroup l v with
    | nil => exact absurd hval hg
    | cons a rest => exact List.mem_cons_self a rest
  rw [mergedOf, he]
  simp only [List.headD_cons]
  rw [hv]
  exact mem_valueGroup_value hhead

theorem filter_value_flatMap (v : String) :
    ∀ (K : List String) (f : String → List IOC),
      (∀ w ∈ K, ∀ i ∈ f w, i.value = w) → K.Nodup →
      (K.flatMap f).filter (fun i => i.value == v) =
        if v ∈ K then (f v).filter (fun i => i.value == v) else [] := by
  intro K
  induction K with
  | nil => simp
  | cons w K ih =>
    intro f hf hnd
    rw [List.nodup_cons] at hnd
    rw [List.flatMap_cons, List.filter_append,
      ih f (fun u hu => hf u (List.mem_cons_of_mem w hu)) hnd.2]
    by_cases hv : v = w
    · rw [hv]
      simp only [List.mem_cons, true_or, if_true, if_pos rfl]
      rw [if_neg hnd.1, List.append_nil]
    · have hw : (f w).filter (fun i => i.value == v) = [] := by
        rw [List.filter_eq_nil_iff]
        intro i hi
        have hiw := hf w (List.mem_cons_self w K) i hi
        simp only [beq_iff_eq, hiw]
        exact fun hwv => hv hwv.symm
      rw [hw, List.nil_append]
      by_cases hvK : v ∈ K
      · rw [if_pos hvK, if_pos (List.mem_cons_of_mem w hvK)]
      · rw [if_neg hvK, if_neg (by simp [hv, hvK])]

theorem reps_filter_value {l : List IOC} {v : String}
    (h : v ∈ l.map (fun i => i.value)) :
    (reps l).filter (fun i => i.value == v) = [mergedOf l v] := by
  rw [reps, filter_value_flatMap v _ _
    (fun w hw i hi => by
      have hwmem : w ∈ l.map (fun i => i.value) := mem_uniqKeys.mp hw
      rw [mergeGroup_valueGroup_eq hwmem] at hi
      have hieq : i = mergedOf l w := List.mem_singleton.mp hi
      rw [hieq]
      exact mergedOf_value hwmem)
    (uniqKeys_nodup _)]
  rw [if_pos (mem_uniqKeys.mpr h), mergeGroup_valueGroup_eq h]
  simp [mergedOf_value h]

theorem reps_map_value (l : List IOC) :
    (reps l).map (fun i => i.value) = uniqKeys (l.map (fun i => i.value)) := by
  rw [reps]
  have : ∀ K : List String, (∀ w ∈ K, w ∈ l.map (fun i => i.value)) →
      (K.flatMap (fun v => mergeGroup (valueGroup l v))).map (fun i => i.value) = K := by
    intro K
    induction K with
    | nil => simp
    | cons w K ih =>
      intro hK
      rw [List.flatMap_cons, List.map_append, ih (fun u hu => hK u (List.mem_cons_of_mem w hu)),
        mergeGroup_valueGroup_eq (hK w (List.mem_cons_self w K))]
      simp [mergedOf_value (hK w (List.mem_cons_self w K))]
  exact this _ (fun w hw => mem_uniqKeys.mp hw)

/-! ### Lemmas about stripping and the context join -/

theorem dropWhile_eq_self_of_head {p : Char → Bool} :
    ∀ {l : List Char}, (∀ c, l.head? = some c → p c = false) → l.dropWhile p = l
  | [], _ => rfl
  | c :: t, h => by
    rw [List.dropWhile_cons, h c rfl]
    simp

theorem head?_dropWhile {p : Char → Bool} :
    ∀ {l : List Char} {c : Char}, (l.dropWhile p).head? = some c → p c = false := by
  intro l
  induction l with
  | nil => intro c h; simp at h
  | cons a t ih =>
    intro c h
    rw [List.dropWhile_cons] at h
    by_cases ha : p a
    · rw [if_pos ha] at h
      exact ih h
    · rw [if_neg ha] at h
      simp only [List.head?_cons, Option.some.injEq] at h
      rw [← h]
      exact Bool.of_not_eq_true ha

theorem stripL_head {l : List Char} {c : Char} (h : (stripL l).head? = some c) :
    pyWs c = false := by
  rw [stripL, List.head?_reverse] at h
  rcases hx : ((l.dropWhile pyWs).reverse.dropWhile pyWs) with _ | ⟨a, t⟩
  · rw [hx] at h; simp at h
  · rw [hx] at h
    have hsuff : a :: t <:+ (l.dropWhile pyWs).reverse := by
      rw [← hx]
      exact List.dropWhile_suffix pyWs
    rcases hsuff with ⟨pre, hpre⟩
    have : (a :: t).getLast? = ((l.dropWhile pyWs).reverse).getLast? := by
      rw [← hpre, List.getLast?_append, List.getLast?_eq_getLast (a :: t) (by simp),
        Option.or_some]
    rw [h, List.getLast?_reverse] at this
    exact head?_dropWhile this.symm

theorem stripL_last {l : List Char} {c : Char} (h : (stripL l).getLast? = some c) :
    pyWs c = false := by
  rw [stripL, List.getLast?_reverse] at h
  exact head?_dropWhile h

theorem stripL_eq_self {l : List Char}
    (h1 : ∀ c, l.head? = some c → pyWs c = false)
    (h2 : ∀ c, l.getLast? = some c → pyWs c = false) : stripL l = l := by
  rw [stripL, dropWhile_eq_self_of_head h1, dropWhile_eq_self_of_head
    (fun c hc => h2 c (by rw [← List.getLast?_reverse, List.reverse_reverse] at hc; exact hc)),
    List.reverse_reverse]

theorem stripL_idem (l : List Char) : stripL (stripL l) = stripL l :=
  stripL_eq_self (fun _ hc => stripL_head hc) (fun _ hc => stripL_last hc)

theorem pstrip_idem (s : String) : pstrip (pstrip s) = pstrip s := by
  rw [pstrip, pstrip]
  exact congrArg String.mk (stripL_idem s.data)

/-- A string is in stripped form when stripping it changes nothing. -/
def Stripped (s : String) : Prop := pstrip s = s

theorem stripped_pstrip (s : String) : Stripped (pstrip s) := pstrip_idem s

theorem stripped_head {s : String} (hs : Stripped s) {c : Char}
    (h : s.data.head? = some c) : pyWs c = false := by
  rw [Stripped, pstrip] at hs
  have : (stripL s.data) = s.data := congrArg String.data hs
  rw [← this] at h
  exact stripL_head h

theorem stripped_last {s : String} (hs : Stripped s) {c : Char}
    (h : s.data.getLast? = some c) : pyWs c = false := by
  rw [Stripped, pstrip] at hs
  have : (stripL s.data) = s.data := congrArg String.data hs
  rw [← this] at h
  exact stripL_last h

theorem string_eq_empty_iff_data {s : String} : s = "" ↔ s.data = [] := by
  cases s with
  | mk d =>
    constructor
    · intro h
      exact congrArg String.data h
    · intro h
      exact congrArg String.mk h

theorem string_ne_empty_iff_data {s : String} : s ≠ "" ↔ s.data ≠ [] :=
  not_congr string_eq_empty_iff_data

theorem stripped_of_stripL {s : String} (h : stripL s.data = s.data) : Stripped s := by
  rw [Stripped, pstrip, h]

/-- Gluing two non-empty stripped strings with the separator keeps the result
stripped: the separator's whitespace is interior. -/
theorem stripped_glue {x y : String} (hx : Stripped x) (hy : Stripped y)
    (hxe : x ≠ "") (hye : y ≠ "") : Stripped (x ++ " | " ++ y) := by
  apply stripped_of_stripL
  have hxd := string_ne_empty_iff_data.mp hxe
  have hyd := string_ne_empty_iff_data.mp hye
  have hglue : (x ++ " | " ++ y).data = x.data ++ (" | ".data ++ y.data) := by
    simp [String.data_append]
  rw [hglue]
  apply stripL_eq_self
  · intro c hc
    rw [List.head?_append] at hc
    cases hxval : x.data with
    | nil => exact absurd hxval hxd
    | cons a t =>
      rw [hxval] at hc
      simp only [List.head?_cons, Option.or_some, Option.some.injEq] at hc
      apply stripped_head hx (c := c)
      rw [hxval, hc]
      rfl
  · intro c hc
    rw [List.getLast?_append, List.getLast?_append] at hc
    cases hyval : y.data with
    | nil => exact absurd hyval hyd
    | cons a t =>
      apply stripped_last hy (c := c)
      rw [hyval] at hc ⊢
      rw [List.getLast?_eq_getLast (a :: t) (by simp), Option.or_some,
        Option.or_some] at hc
      rw [List.getLast?_eq_getLast (a :: t) (by simp)]
      exact hc

theorem joinSep_ne_empty : ∀ {ps : List String}, ps ≠ [] → (∀ p ∈ ps, p ≠ "") →
    joinSep ps ≠ ""
  | [], h, _ => absurd rfl h
  | [p], _, hall => by
    rw [joinSep]
    exact hall p (List.mem_singleton.mpr rfl)
  | p :: q :: rest, _, hall => by
    rw [joinSep, string_ne_empty_iff_data]
    simp only [String.data_append]
    intro hcontra
    have := congrArg List.length hcontra
    simp [List.length_append] at this

theorem stripped_joinSep : ∀ {ps : List String},
    (∀ p ∈ ps, Stripped p ∧ p ≠ "") → Stripped (joinSep ps)
  | [], _ => by
    rw [joinSep, Stripped]
    rfl
  | [p], h => by
    rw [joinSep]
    exact (h p (List.mem_singleton.mpr rfl)).1
  | p :: q :: rest, h => by
    rw [joinSep]
    have hps := h p (List.mem_cons_self _ _)
    have hrest : ∀ r ∈ q :: rest, Stripped r ∧ r ≠ "" :=
      fun r hr => h r (List.mem_cons_of_mem p hr)
    exact stripped_glue hps.1 (stripped_joinSep hrest) hps.2
      (joinSep_ne_empty (by simp) (fun r hr => (hrest r hr).2))
  termination_by ps => ps.length

theorem joinSep_cons_cons (p q : String) (rest : List String) :
    joinSep (p :: q :: rest) = p ++ " | " ++ joinSep (q :: rest) := by
  rw [joinSep]

theorem joinSep_join : ∀ (ps qs : List String), ps ≠ [] →
    joinSep (joinSep ps :: qs) = joinSep (ps ++ qs)
  | [], _, h => absurd rfl h
  | [p], qs, _ => by
    cases qs with
    | nil => rfl
    | cons r qs2 => rfl
  | p :: q :: rest, qs, _ => by
    cases qs with
    | nil =>
      rw [List.append_nil]
      rfl
    | cons r qs2 =>
      have ih := joinSep_join (q :: rest) (r :: qs2) (fun hc => List.noConfusion hc)
      have l1 : joinSep (joinSep (p :: q :: rest) :: r :: qs2)
          = joinSep (p :: q :: rest) ++ " | " ++ joinSep (r :: qs2) :=
        joinSep_cons_cons _ _ _
      have l2 : (p :: q :: rest) ++ r :: qs2 = p :: q :: (rest ++ r :: qs2) := rfl
      have l3 : joinSep (p :: q :: (rest ++ r :: qs2))
          = p ++ " | " ++ joinSep (q :: (rest ++ r :: qs2)) := joinSep_cons_cons _ _ _
      have l4 : joinSep (q :: (rest ++ r :: qs2)) = joinSep ((q :: rest) ++ r :: qs2) := rfl
      rw [l1, l2, l3, l4, ← ih, joinSep_cons_cons, joinSep_cons_cons]
      simp [String.append_assoc]
  termination_by ps _ _ => ps.length

/-! ### Composing the group merge -/

theorem contextParts_append (g h : List IOC) :
    contextParts (g ++ h) = contextParts g ++ contextParts h := by
  rw [contextParts, contextParts, contextParts, List.map_append, List.filter_append]

theorem contextParts_cons (i : IOC) (g : List IOC) :
    contextParts (i :: g) =
      (if pstrip i.context ≠ "" then [pstrip i.context] else []) ++ contextParts g := by
  rw [contextParts, List.map_cons, List.filter_cons]
  by_cases h : pstrip i.context = ""
  · rw [if_neg (by simp [h]), if_neg (by simp [h]), List.nil_append]
    rfl
  · rw [if_pos (by simp [h]), if_pos (by simp [h]), List.singleton_append]
    rfl

theorem contextParts_elem {g : List IOC} {p : String} (h : p ∈ contextParts g) :
    Stripped p ∧ p ≠ "" := by
  rw [contextParts, List.mem_filter] at h
  rcases List.mem_map.mp h.1 with ⟨i, _, hip⟩
  refine ⟨?_, ?_⟩
  · rw [← hip]
    exact stripped_pstrip i.context
  · have := h.2
    simpa using this

/-- Merging an already merged group together with further group members gives
the same result as merging the whole group at once. -/
theorem mergeGroup_mergeGroup_append : ∀ (g h : List IOC),
    mergeGroup (mergeGroup g ++ h) = mergeGroup (g ++ h)
  | [], _ => rfl
  | [_], _ => rfl
  | i :: j :: rest, h => by
    cases h with
    | nil =>
      rw [List.append_nil, List.append_nil]
      rfl
    | cons x h2 =>
      have hctx : combined_context (⟨i.type, i.value,
          combined_context (i :: j :: rest)⟩ :: x :: h2)
          = combined_context (i :: j :: (rest ++ x :: h2)) := by
        have hsplit : contextParts (i :: j :: (rest ++ x :: h2))
            = contextParts (i :: j :: rest) ++ contextParts (x :: h2) := by
          rw [show (i :: j :: (rest ++ x :: h2)) = (i :: j :: rest) ++ (x :: h2) from rfl,
            contextParts_append]
        show joinSep (contextParts
            (⟨i.type, i.value, combined_context (i :: j :: rest)⟩ :: x :: h2))
          = joinSep (contextParts (i :: j :: (rest ++ x :: h2)))
        rw [hsplit, contextParts_cons]
        rw [show (⟨i.type, i.value, combined_context (i :: j :: rest)⟩ : IOC).context
          = combined_context (i :: j :: rest) from rfl]
        by_cases hpg : contextParts (i :: j :: rest) = []
        · have hcc : combined_context (i :: j :: rest) = "" := by
            rw [combined_context, hpg]
            rfl
          rw [hcc, hpg, if_neg (fun hcon => hcon rfl)]
        · have helem : ∀ p ∈ contextParts (i :: j :: rest), Stripped p ∧ p ≠ "" :=
            fun p hp => contextParts_elem hp
          have hstr : Stripped (combined_context (i :: j :: rest)) := by
            rw [combined_context]
            exact stripped_joinSep helem
          have hne : combined_context (i :: j :: rest) ≠ "" := by
            rw [combined_context]
            exact joinSep_ne_empty hpg (fun p hp => (helem p hp).2)
          rw [hstr, if_pos hne, List.singleton_append, combined_context]
          exact joinSep_join _ _ hpg
      show [(⟨i.type, i.value, combined_context (⟨i.type, i.value,
          combined_context (i :: j :: rest)⟩ :: x :: h2)⟩ : IOC)]
        = [⟨i.type, i.value, combined_context (i :: j :: (rest ++ x :: h2))⟩]
      rw [hctx]

/-! ### The incremental merge collapses to a single final merge -/

theorem valueGroup_append (a b : List IOC) (v : String) :
    valueGroup (a ++ b) v = valueGroup a v ++ valueGroup b v :=
  List.filter_append _ _

theorem valueGroup_eq_nil {a : List IOC} {v : String}
    (h : v ∉ a.map (fun i => i.value)) : valueGroup a v = [] := by
  rw [valueGroup, List.filter_eq_nil_iff]
  intro i hi
  simp only [beq_iff_eq]
  intro he
  exact h (List.mem_map.mpr ⟨i, hi, he⟩)

theorem reps_elem {a : List IOC} {i : IOC} (h : i ∈ reps a) :
    i.value ∈ a.map (fun x => x.value) ∧ i = mergedOf a i.value := by
  rw [reps] at h
  rcases List.mem_flatMap.mp h with ⟨v, hv, hiv⟩
  have hvmem := mem_uniqKeys.mp hv
  rw [mergeGroup_valueGroup_eq hvmem] at hiv
  have heq : i = mergedOf a v := List.mem_singleton.mp hiv
  have hival : i.value = v := by rw [heq]; exact mergedOf_value hvmem
  refine ⟨?_, ?_⟩
  · rw [hival]; exact hvmem
  · rw [hival]; exact heq

theorem mem_dedup {a : List IOC} {i : IOC} :
    i ∈ deduplicate_and_combine_context a ↔ i ∈ reps a :=
  (sortByType_perm (reps a)).mem_iff

theorem dedup_map_value_mem {a : List IOC} {v : String} :
    v ∈ (deduplicate_and_combine_context a).map (fun i => i.value)
      ↔ v ∈ a.map (fun i => i.value) := by
  have hperm := (sortByType_perm (reps a)).map (fun i => i.value)
  rw [deduplicate_and_combine_context, hperm.mem_iff, reps_map_value, mem_uniqKeys]

theorem valueGroup_dedup (a : List IOC) (v : String) :
    valueGroup (deduplicate_and_combine_context a) v = mergeGroup (valueGroup a v) := by
  by_cases h : v ∈ a.map (fun i => i.value)
  · rw [mergeGroup_valueGroup_eq h]
    have hperm : List.Perm (valueGroup (deduplicate_and_combine_context a) v)
        ((reps a).filter (fun i => i.value == v)) := by
      rw [valueGroup, deduplicate_and_combine_context]
      exact (sortByType_perm (reps a)).filter _
    rw [reps_filter_value h] at hperm
    exact List.perm_singleton.mp hperm
  · rw [valueGroup_eq_nil (fun hc => h (dedup_map_value_mem.mp hc)),
      valueGroup_eq_nil h]
    rfl

/-- Per value, merging the merged accumulator with the new entities equals
merging everything at once. -/
theorem groupMerge_eq (a b : List IOC) (v : String) :
    mergeGroup (valueGroup (deduplicate_and_combine_context a ++ b) v)
      = mergeGroup (valueGroup (a ++ b) v) := by
  rw [valueGroup_append, valueGroup_dedup, mergeGroup_mergeGroup_append,
    ← valueGroup_append]

theorem flatMap_singleton_filter (p : IOC → Bool) (E : String → IOC) :
    ∀ (K : List String) (F : String → List IOC), (∀ v ∈ K, F v = [E v]) →
      (K.flatMap F).filter p = (K.filter (fun v => p (E v))).map E := by
  intro K
  induction K with
  | nil => intro F _; rfl
  | cons w K ih =>
    intro F h
    rw [List.flatMap_cons, List.filter_append, h w (List.mem_cons_self w K),
      ih F (fun u hu => h u (List.mem_cons_of_mem w hu))]
    by_cases hp : p (E w) = true
    · simp [List.filter_cons, hp]
    · simp [List.filter_cons, hp]

theorem headD_append_of_ne_nil {l : List IOC} (l2 : List IOC) (d : IOC)
    (h : l ≠ []) : (l ++ l2).headD d = l.headD d := by
  cases l with
  | nil => exact absurd rfl h
  | cons x t => rfl

theorem mergedOf_append_type {a : List IOC} (b : List IOC) {v : String}
    (h : v ∈ a.map (fun i => i.value)) :
    (mergedOf (a ++ b) v).type = (mergedOf a v).type := by
  have hab : v ∈ (a ++ b).map (fun i => i.value) := by
    rw [List.map_append]
    exact List.mem_append_left _ h
  rcases mergeGroup_of_ne_nil (valueGroup_ne_nil h) with ⟨e, he, het, _⟩
  rcases mergeGroup_of_ne_nil (valueGroup_ne_nil hab) with ⟨f, hf, hft, _⟩
  rw [mergedOf, mergedOf, he, hf]
  simp only [List.headD_cons]
  rw [het, hft, valueGroup_append, headD_append_of_ne_nil _ _ (valueGroup_ne_nil h)]

/-- The central lemma: re-merging a merged accumulator extended with new
entities gives exactly the single final merge of the whole accumulation. -/
theorem dedup_dedup_append (a b : List IOC) :
    deduplicate_and_combine_context (deduplicate_and_combine_context a ++ b)
      = deduplicate_and_combine_context (a ++ b) := by
  apply sorted_filter_ext _ _ (sortByType_sorted _) (sortByType_sorted _)
  intro k
  show (sortByType (reps (deduplicate_and_combine_context a ++ b))).filter
      (fun i => i.type == k)
    = (sortByType (reps (a ++ b))).filter (fun i => i.type == k)
  rw [sortByType_filter, sortByType_filter]
  have hfun : (fun v => mergeGroup (valueGroup (deduplicate_and_combine_context a ++ b) v))
      = (fun v => mergeGroup (valueGroup (a ++ b) v)) := funext (groupMerge_eq a b)
  rw [reps, reps, hfun]
  have hmemab : ∀ v ∈ uniqKeys ((deduplicate_and_combine_context a ++ b).map
      (fun i => i.value)), v ∈ (a ++ b).map (fun i => i.value) := by
    intro v hv
    have := mem_uniqKeys.mp hv
    rw [List.map_append] at this
    rw [List.map_append]
    rcases List.mem_append.mp this with hva | hvb
    · exact List.mem_append_left _ (dedup_map_value_mem.mp hva)
    · exact List.mem_append_right _ hvb
  have hmemab2 : ∀ v ∈ uniqKeys ((a ++ b).map (fun i => i.value)),
      v ∈ (a ++ b).map (fun i => i.value) := fun v hv => mem_uniqKeys.mp hv
  rw [flatMap_singleton_filter _ (mergedOf (a ++ b)) _ _
    (fun v hv => mergeGroup_valueGroup_eq (hmemab v hv))]
  rw [flatMap_singleton_filter _ (mergedOf (a ++ b)) _ _
    (fun v hv => mergeGroup_valueGroup_eq (hmemab2 v hv))]
  congr 1
  -- now an equality of key lists filtered by the merged type
  have hvdperm : List.Perm ((deduplicate_and_combine_context a).map (fun i => i.value))
      (uniqKeys (a.map (fun i => i.value))) := by
    rw [← reps_map_value]
    exact (sortByType_perm (reps a)).map _
  have hvdnodup : ((deduplicate_and_combine_context a).map (fun i => i.value)).Nodup :=
    hvdperm.nodup_iff.mpr (uniqKeys_nodup _)
  rw [List.map_append, List.map_append, uniqKeys_append, uniqKeys_append,
    uniqKeys_of_nodup hvdnodup, List.filter_append, List.filter_append]
  congr 1
  · -- keys coming from the accumulator
    set p := fun v => ((mergedOf (a ++ b) v).type == k) with hp
    have hq1 : ∀ i ∈ sortByType (reps a), p i.value = (i.type == k) := by
      intro i hi
      have hrep := reps_elem ((sortByType_perm (reps a)).mem_iff.mp hi)
      rw [hp]
      show ((mergedOf (a ++ b) i.value).type == k) = (i.type == k)
      rw [mergedOf_append_type b hrep.1, ← hrep.2]
    have hq2 : ∀ i ∈ reps a, p i.value = (i.type == k) := by
      intro i hi
      have hrep := reps_elem hi
      rw [hp]
      show ((mergedOf (a ++ b) i.value).type == k) = (i.type == k)
      rw [mergedOf_append_type b hrep.1, ← hrep.2]
    show (((sortByType (reps a)).map (fun i => i.value)).filter p)
      = ((uniqKeys (a.map (fun i => i.value))).filter p)
    rw [← reps_map_value, List.filter_map, List.filter_map]
    have e1 : (sortByType (reps a)).filter (p ∘ fun i => i.value)
        = (sortByType (reps a)).filter (fun i => i.type == k) :=
      List.filter_congr (fun i hi => hq1 i hi)
    have e2 : (reps a).filter (p ∘ fun i => i.value)
        = (reps a).filter (fun i => i.type == k) :=
      List.filter_congr (fun i hi => hq2 i hi)
    rw [e1, e2, sortByType_filter]
  · -- keys newly introduced by the extension
    congr 1
    apply List.filter_congr
    intro w _
    apply decide_eq_decide.mpr
    apply not_congr
    exact dedup_map_value_mem

/-! ### Merge on duplicate-free input -/

theorem flatMap_congr_mem {K : List String} {f g : String → List IOC}
    (h : ∀ v ∈ K, f v = g v) : K.flatMap f = K.flatMap g := by
  show (K.map f).flatten = (K.map g).flatten
  rw [List.map_congr_left h]

theorem reps_of_nodup_values : ∀ {l : List IOC},
    (l.map (fun i => i.value)).Nodup → reps l = l := by
  intro l
  induction l with
  | nil => intro _; rfl
  | cons i t ih =>
    intro h
    rw [List.map_cons, List.nodup_cons] at h
    rw [reps, List.map_cons, uniqKeys]
    have hfilter : (uniqKeys (t.map (fun x => x.value))).filter (fun w => w != i.value)
        = uniqKeys (t.map (fun x => x.value)) := by
      rw [List.filter_eq_self]
      intro w hw
      simp only [bne_iff_ne, ne_eq, decide_eq_true_eq]
      intro he
      exact h.1 (he ▸ mem_uniqKeys.mp hw)
    have hti : t.filter (fun x => x.value == i.value) = [] := by
      rw [List.filter_eq_nil_iff]
      intro x hx
      simp only [beq_iff_eq]
      intro he
      exact h.1 (he ▸ List.mem_map.mpr ⟨x, hx, rfl⟩)
    have hg : valueGroup (i :: t) i.value = [i] := by
      rw [valueGroup, List.filter_cons, if_pos (by simp), hti]
    have hrest : (uniqKeys (t.map (fun x => x.value))).flatMap
        (fun v => mergeGroup (valueGroup (i :: t) v))
        = (uniqKeys (t.map (fun x => x.value))).flatMap
          (fun v => mergeGroup (valueGroup t v)) := by
      apply flatMap_congr_mem
      intro v hv
      have hvi : (i.value == v) = false := by
        simp only [beq_eq_false_iff_ne, ne_eq]
        intro he
        exact h.1 (he ▸ mem_uniqKeys.mp hv)
      rw [valueGroup, List.filter_cons, if_neg (by simp [hvi]), valueGroup]
    rw [hfilter, List.flatMap_cons, hg, hrest]
    show mergeGroup [i] ++ reps t = i :: t
    rw [ih h.2]
    rfl

theorem dedup_values_nodup (l : List IOC) :
    ((deduplicate_and_combine_context l).map (fun i => i.value)).Nodup := by
  have hperm : List.Perm ((deduplicate_and_combine_context l).map (fun i => i.value))
      (uniqKeys (l.map (fun i => i.value))) := by
    rw [← reps_map_value]
    exact (sortByType_perm (reps l)).map _
  exact hperm.nodup_iff.mpr (uniqKeys_nodup _)

theorem dedup_of_nodup_perm {E P : List IOC} (hperm : List.Perm E P)
    (hnodup : (E.map (fun i => i.value)).Nodup) :
    List.Perm (deduplicate_and_combine_context P) (deduplicate_and_combine_context E) := by
  have hnodupP : (P.map (fun i => i.value)).Nodup :=
    ((hperm.map (fun i => i.value)).nodup_iff).mp hnodup
  have h1 : List.Perm (deduplicate_and_combine_context P) P := by
    rw [deduplicate_and_combine_context, reps_of_nodup_values hnodupP]
    exact sortByType_perm P
  have h2 : List.Perm (deduplicate_and_combine_context E) E := by
    rw [deduplicate_and_combine_context, reps_of_nodup_values hnodup]
    exact sortByType_perm E
  exact (h1.trans hperm.symm).trans h2.symm

/-! ### The extraction pipeline: `LLMInference.invoke_model`, `IOCs.extend`,
`IOCs.generate` -/

/-- Python exceptions distinguished by the pipeline: a pydantic
`ValidationError` versus any other exception raised by the backend call. -/
inductive PyExn where
  | validationError (msg : String)
  | otherError (msg : String)
deriving DecidableEq, Repr

/-- Result of running a piece of Python code: a returned value or a raised
exception. -/
inductive PyResult (α : Type) where
  | ok (val : α)
  | exn (e : PyExn)
deriving DecidableEq, Repr

/-- Embedding of `LLMInference.invoke_model`: the backend call
`model_with_structure.invoke(...)` either returns a validated structured
result (modelled by `ok`, carrying the parsed entity list or `None`) or
raises. The `try/except ValidationError` converts a validation fault into
the returned sentinel `None`; every other exception propagates. -/
def invoke_model (backend : PyResult (Option (List IOC))) :
    PyResult (Option (List IOC)) :=
  match backend with
  | .ok v => .ok v
  | .exn (.validationError _) => .ok none
  | .exn e => .exn e

/-- Embedding of `IOCs.extend` for one chunk: call `invoke_model`; if it
returns a non-`None` structured output, append its entities and run the merge
pass, returning the number of extracted entities; a `ValidationError` is
swallowed (`return 0`); any other exception propagates. The result carries
the updated entity list, the returned count, and whether the merge pass ran. -/
def extend (cur : List IOC) (backend : PyResult (Option (List IOC))) :
    PyResult (List IOC × Nat × Bool) :=
  match invoke_model backend with
  | .ok (some out) =>
      .ok (deduplicate_and_combine_context (cur ++ out), out.length, true)
  | .ok none => .ok (cur, 0, false)
  | .exn (.validationError _) => .ok (cur, 0, false)
  | .exn e => .exn e

/-- Observable outcome of a `generate` run: the final entity list, the number
of progress advances, the number of merge-pass executions and the exception
that aborted the run, if any. -/
structure GenOutcome where
  iocs : List IOC
  progressAdvances : Nat
  mergeRuns : Nat
  fault : Option PyExn
deriving DecidableEq, Repr

/-- Embedding of `IOCs.generate`: process the chunks in document order; after
each successful `extend` advance the progress bar once; an exception raised
by `extend` aborts the loop (and propagates). -/
def generate (cur : List IOC) : List (PyResult (Option (List IOC))) → GenOutcome
  | [] => ⟨cur, 0, 0, none⟩
  | b :: rest =>
    match extend cur b with
    | .ok (next, _, merged) =>
      let r := generate next rest
      ⟨r.iocs, r.progressAdvances + 1, r.mergeRuns + (if merged then 1 else 0), r.fault⟩
    | .exn e => ⟨cur, 0, 0, some e⟩

/-- The entities a chunk outcome contributes to the accumulation. -/
def chunkEntities (b : PyResult (Option (List IOC))) : List IOC :=
  match b with
  | .ok (some l) => l
  | _ => []

/-- Whether a chunk outcome is a validated non-`None` extraction. -/
def isExtracted (b : PyResult (Option (List IOC))) : Bool :=
  match b with
  | .ok (some _) => true
  | _ => false

/-- Whether a chunk outcome is free of a non-validation backend fault. -/
def backendOk (b : PyResult (Option (List IOC))) : Bool :=
  match b with
  | .exn (.otherError _) => false
  | _ => true

/-- Characterization of a fault-free `generate` run started from a merged
accumulator: it advances once per chunk, never aborts, runs the merge pass
once per successfully extracted chunk, and its final entity list is the
single merge of the concatenation of all contributed entities. -/
theorem generate_ok_run : ∀ (chunks : List (PyResult (Option (List IOC))))
    (acc : List IOC), (∀ b ∈ chunks, backendOk b = true) →
    generate (deduplicate_and_combine_context acc) chunks =
      ⟨deduplicate_and_combine_context (acc ++ (chunks.map chunkEntities).flatten),
        chunks.length, (chunks.filter isExtracted).length, none⟩
  | [], acc, _ => by
    rw [generate, List.map_nil, List.flatten_nil, List.append_nil]
    rfl
  | b :: rest, acc, h => by
    have hrest : ∀ c ∈ rest, backendOk c = true :=
      fun c hc => h c (List.mem_cons_of_mem b hc)
    cases b with
    | ok v =>
      cases v with
      | some out =>
        simp only [generate, extend, invoke_model]
        rw [dedup_dedup_append, generate_ok_run rest (acc ++ out) hrest]
        simp only [List.map_cons, List.flatten_cons, chunkEntities, List.filter_cons,
          isExtracted, List.length_cons, if_pos rfl, if_true]
        rw [List.append_assoc]
      | none =>
        simp only [generate, extend, invoke_model]
        rw [generate_ok_run rest acc hrest]
        simp only [List.map_cons, List.flatten_cons, chunkEntities, List.filter_cons,
          isExtracted, List.length_cons, Bool.false_eq_true, if_false, List.nil_append]
        rfl
    | exn e =>
      cases e with
      | validationError m =>
        simp only [generate, extend, invoke_model]
        rw [generate_ok_run rest acc hrest]
        simp only [List.map_cons, List.flatten_cons, chunkEntities, List.filter_cons,
          isExtracted, List.length_cons, Bool.false_eq_true, if_false, List.nil_append]
        rfl
      | otherError m =>
        have := h _ (List.mem_cons_self _ _)
        simp [backendOk] at this

/-! ### Normalization: behavior of `str.replace` without an occurrence -/

theorem replaceGo_of_no_occurrence {p r : List Char} :
    ∀ (fuel : Nat) (l : List Char), ¬ (p <:+: l) → replaceGo p r fuel l = l
  | fuel, [], _ => by cases fuel <;> rfl
  | 0, c :: cs, _ => rfl
  | fuel + 1, c :: cs, h => by
    have hpre : p.isPrefixOf (c :: cs) = false := by
      rw [Bool.eq_false_iff]
      intro hc
      exact h (List.IsPrefix.isInfix (List.isPrefixOf_iff_prefix.mp hc))
    rw [replaceGo, hpre]
    rw [if_neg (by simp)]
    rw [replaceGo_of_no_occurrence fuel cs (fun hc => h (List.infix_cons hc))]

/-- If the pattern does not occur in the string, `str.replace` is the
identity. -/
theorem pyReplace_of_no_occurrence {t pat : String} (rep : String)
    (h : ¬ (pat.data <:+: t.data)) : pyReplace t pat rep = t := by
  rw [pyReplace, replaceL, replaceGo_of_no_occurrence _ _ h]

/-- The six defanging patterns replaced by `normalize_value`, in source
order. -/
def defangPatterns : List String :=
  ["[.]", "[:]", "hxxp://", "hxxps://", "hXXp://", "hXXps://"]

/-! ### CSV serialization: `IOCs.as_csv` and `IOCs.extend_from_csv`.

The Python `csv` module (default dialect: comma delimiter, double-quote
quoting with doubling, CRLF line terminator, minimal quoting) is embedded
below for the writer and the reader on the dialect the writer emits. -/

/-- The double-quote character. -/
def dq : Char := Char.ofNat 34

/-- Whether `csv.writer` (minimal-quoting dialect) must quote a field: it
contains the delimiter, the quote character, or a line-terminator
character. -/
def needsQuote (s : String) : Bool :=
  s.data.any (fun c => c == ',' || c == dq || c == '\r' || c == '\n')

/-- Double every quote character (the doublequote escaping of csv). -/
def escapeQuotes : List Char → List Char
  | [] => []
  | c :: cs =>
    if c == dq then c :: c :: escapeQuotes cs
    else c :: escapeQuotes cs

/-- One csv field as written by `csv.writer`. -/
def writeField (s : String) : String :=
  if needsQuote s then ⟨dq :: (escapeQuotes s.data ++ [dq])⟩ else s

/-- Comma-joining of the written fields of one record. -/
def joinComma : List String → String
  | [] => ""
  | [s] => s
  | s :: q :: rest => s ++ "," ++ joinComma (q :: rest)

/-- One csv record as written by `csv.writer` (CRLF line terminator). -/
def writeRow (fields : List String) : String :=
  joinComma (fields.map writeField) ++ "\r\n"

/-- Sequential concatenation of the written rows. -/
def strConcat : List String → String
  | [] => ""
  | s :: rest => s ++ strConcat rest

/-- Embedding of `IOCs.as_csv`: the header row `Type,Value,Context` followed
by one row per entity, in list order. -/
def as_csv (l : List IOC) : String :=
  writeRow ["Type", "Value", "Context"] ++
    strConcat (l.map (fun i => writeRow [i.type, i.value, i.context]))

/-- Scanner state of the csv reader: outside quotes, inside quotes, just
behind a closing quote, or just behind a carriage return (so that a CRLF pair
terminates only one record). -/
inductive QState where
  | normal
  | quoted
  | afterQ
  | afterCR
deriving DecidableEq, Repr

/-- Character-level scanner of the csv reader for the default dialect
(modelled from the Python csv module): `fa` is the current field, `ra` the
fields of the current record. Quoted fields may contain delimiters and line
terminators; a doubled quote inside a quoted field is a literal quote; a
record ends at CRLF, a lone LF or a lone CR; a fully blank line yields no
record (`csv.DictReader` skips empty rows); a final record without a trailing
line terminator is still emitted. The `afterCR` state (entered with an empty
field and record, right after a record was emitted at a CR) swallows one
following LF. -/
def csvScan : QState → List Char → List String → List Char → List (List String)
  | _, fa, ra, [] =>
    if fa.isEmpty && ra.isEmpty then [] else [ra ++ [String.mk fa]]
  | QState.quoted, fa, ra, c :: rest =>
    if c == dq then csvScan QState.afterQ fa ra rest
    else csvScan QState.quoted (fa ++ [c]) ra rest
  | QState.normal, fa, ra, c :: rest =>
    if c == dq then
      (if fa.isEmpty then csvScan QState.quoted fa ra rest
       else csvScan QState.normal (fa ++ [c]) ra rest)
    else if c == ',' then csvScan QState.normal [] (ra ++ [String.mk fa]) rest
    else if c == '\r' then
      (if fa.isEmpty && ra.isEmpty then csvScan QState.afterCR [] [] rest
       else (ra ++ [String.mk fa]) :: csvScan QState.afterCR [] [] rest)
    else if c == '\n' then
      (if fa.isEmpty && ra.isEmpty then csvScan QState.normal [] [] rest
       else (ra ++ [String.mk fa]) :: csvScan QState.normal [] [] rest)
    else csvScan QState.normal (fa ++ [c]) ra rest
  | QState.afterQ, fa, ra, c :: rest =>
    if c == dq then csvScan QState.quoted (fa ++ [c]) ra rest
    else if c == ',' then csvScan QState.normal [] (ra ++ [String.mk fa]) rest
    else if c == '\r' then
      (if fa.isEmpty && ra.isEmpty then csvScan QState.afterCR [] [] rest
       else (ra ++ [String.mk fa]) :: csvScan QState.afterCR [] [] rest)
    else if c == '\n' then
      (if fa.isEmpty && ra.isEmpty then csvScan QState.normal [] [] rest
       else (ra ++ [String.mk fa]) :: csvScan QState.normal [] [] rest)
    else csvScan QState.normal (fa ++ [c]) ra rest
  | QState.afterCR, fa, ra, c :: rest =>
    if c == '\n' then csvScan QState.normal fa ra rest
    else if c == dq then csvScan QState.quoted fa ra rest
    else if c == ',' then csvScan QState.normal [] (ra ++ [String.mk fa]) rest
    else if c == '\r' then csvScan QState.afterCR fa ra rest
    else csvScan QState.normal (fa ++ [c]) ra rest

/-- Parse a csv document into its records. -/
def parseCsvRecords (s : String) : List (List String) :=
  csvScan QState.normal [] [] s.data

/-- Last-wins lookup in an association list (a Python dict built by
comprehension keeps the last value for a duplicated key). -/
def lookupLast (pairs : List (String × String)) (k : String) : Option String :=
  ((pairs.filter (fun kv => kv.1 == k)).map (fun kv => kv.2)).getLast?

/-- Modelled from `csv.DictReader` plus the row handling in
`extend_from_csv`: the row dict maps the header fields to the row fields, the
source lowercases the keys, and `IOC(**row)` requires `type` and `value`
(defaulting `context` to the empty string); a missing required field is a
`ValidationError`, modelled as `none`. -/
def rowToIOC (fieldnames row : List String) : Option IOC :=
  let pairs := (fieldnames.zip row).map (fun kv => (pyLower kv.1, kv.2))
  match lookupLast pairs "type", lookupLast pairs "value" with
  | some t, some v => some (mkIOC t v ((lookupLast pairs "context").getD ""))
  | _, _ => none

/-- The rows collected by the `for` loop in `extend_from_csv`: rows before
the first validation failure are kept; the failure aborts the loop and the
rows collected so far survive (the `except` is outside the loop). -/
def collectRows (fieldnames : List String) : List (List String) → List IOC
  | [] => []
  | row :: rest =>
    match rowToIOC fieldnames row with
    | some i => i :: collectRows fieldnames rest
    | none => []

/-- The entity list built by the parsing loop of `extend_from_csv` (an empty
document has no header and yields nothing). -/
def csvEntities (iocs_csv : String) : List IOC :=
  match parseCsvRecords iocs_csv with
  | [] => []
  | header :: rows => collectRows header rows

/-- Embedding of `IOCs.extend_from_csv`: parse, build entities row by row,
extend the current list and run the merge pass. -/
def extend_from_csv (cur : List IOC) (iocs_csv : String) : List IOC :=
  deduplicate_and_combine_context (cur ++ csvEntities iocs_csv)

/-! ### CSV round-trip lemmas -/

theorem csvScan_plain {l : List Char}
    (hl : ∀ c ∈ l, (c == ',' || c == dq || c == '\r' || c == '\n') = false) :
    ∀ (fa : List Char) (ra : List String) (rest : List Char),
      csvScan QState.normal fa ra (l ++ rest) = csvScan QState.normal (fa ++ l) ra rest := by
  induction l with
  | nil =>
    intro fa ra rest
    rw [List.nil_append, List.append_nil]
  | cons c l ih =>
    intro fa ra rest
    have hc := hl c (List.mem_cons_self c l)
    simp only [Bool.or_eq_false_iff] at hc
    rw [List.cons_append, csvScan, hc.1.1.2, if_neg Bool.false_ne_true, hc.1.1.1,
      if_neg Bool.false_ne_true, hc.1.2, if_neg Bool.false_ne_true, hc.2,
      if_neg Bool.false_ne_true,
      ih (fun x hx => hl x (List.mem_cons_of_mem c hx))]
    simp

theorem csvScan_quoted (l : List Char) :
    ∀ (fa : List Char) (ra : List String) (rest : List Char),
      csvScan QState.quoted fa ra (escapeQuotes l ++ rest)
        = csvScan QState.quoted (fa ++ l) ra rest := by
  induction l with
  | nil =>
    intro fa ra rest
    rw [escapeQuotes, List.nil_append, List.append_nil]
  | cons c l ih =>
    intro fa ra rest
    rw [escapeQuotes]
    by_cases hc : c = dq
    · rw [if_pos (beq_iff_eq.mpr hc), List.cons_append, List.cons_append, csvScan,
        if_pos (beq_iff_eq.mpr hc), csvScan, if_pos (beq_iff_eq.mpr hc), ih]
      simp
    · rw [if_neg (by simp [hc]), List.cons_append, csvScan,
        if_neg (by simp [hc]), ih]
      simp

theorem isEmpty_eq_false_of_ne_nil {ra : List String} (h : ra ≠ []) :
    ra.isEmpty = false := by
  cases ra with
  | nil => exact absurd rfl h
  | cons a l => rfl

theorem csvScan_field_comma (f : String) (ra : List String) (rest : List Char) :
    csvScan QState.normal [] ra ((writeField f).data ++ ',' :: rest)
      = csvScan QState.normal [] (ra ++ [f]) rest := by
  by_cases hq : needsQuote f = true
  · rw [writeField, if_pos hq]
    show csvScan QState.normal [] ra ((dq :: (escapeQuotes f.data ++ [dq])) ++ ',' :: rest)
      = csvScan QState.normal [] (ra ++ [f]) rest
    rw [List.cons_append, csvScan, if_pos (beq_self_eq_true dq), if_pos List.isEmpty_nil,
      List.append_assoc, csvScan_quoted, List.singleton_append, csvScan,
      if_pos (beq_self_eq_true dq), csvScan,
      if_neg (by decide), if_pos (by decide)]
    simp
  · rw [writeField, if_neg hq]
    have hl : ∀ c ∈ f.data, (c == ',' || c == dq || c == '\r' || c == '\n') = false := by
      intro c hcmem
      by_contra hcon
      exact hq (List.any_eq_true.mpr ⟨c, hcmem, Bool.of_not_eq_false hcon⟩)
    rw [csvScan_plain hl, List.nil_append, csvScan, if_neg (by decide),
      if_pos (by decide)]

theorem csvScan_field_crlf (f : String) (ra : List String) (rest : List Char)
    (hra : ra ≠ []) :
    csvScan QState.normal [] ra ((writeField f).data ++ '\r' :: '\n' :: rest)
      = (ra ++ [f]) :: csvScan QState.normal [] [] rest := by
  have hand : ∀ (fa : List Char), (fa.isEmpty && ra.isEmpty) = false := by
    intro fa
    rw [isEmpty_eq_false_of_ne_nil hra, Bool.and_false]
  by_cases hq : needsQuote f = true
  · rw [writeField, if_pos hq]
    show csvScan QState.normal [] ra
        ((dq :: (escapeQuotes f.data ++ [dq])) ++ '\r' :: '\n' :: rest)
      = (ra ++ [f]) :: csvScan QState.normal [] [] rest
    rw [List.cons_append, csvScan, if_pos (beq_self_eq_true dq), if_pos List.isEmpty_nil,
      List.append_assoc, csvScan_quoted, List.singleton_append, csvScan,
      if_pos (beq_self_eq_true dq), csvScan,
      if_neg (by decide), if_neg (by decide), if_pos (by decide), hand,
      if_neg Bool.false_ne_true, csvScan, if_pos (by decide)]
    simp
  · rw [writeField, if_neg hq]
    have hl : ∀ c ∈ f.data, (c == ',' || c == dq || c == '\r' || c == '\n') = false := by
      intro c hcmem
      by_contra hcon
      exact hq (List.any_eq_true.mpr ⟨c, hcmem, Bool.of_not_eq_false hcon⟩)
    rw [csvScan_plain hl, List.nil_append, csvScan, if_neg (by decide),
      if_neg (by decide), if_pos (by decide), hand, if_neg Bool.false_ne_true,
      csvScan, if_pos (by decide)]

theorem csvScan_row (t v c : String) (rest : List Char) :
    csvScan QState.normal [] [] ((writeRow [t, v, c]).data ++ rest)
      = [t, v, c] :: csvScan QState.normal [] [] rest := by
  have hdata : (writeRow [t, v, c]).data
      = (writeField t).data ++ ',' :: ((writeField v).data ++ ',' :: ((writeField c).data
          ++ ['\r', '\n'])) := by
    rw [writeRow]
    show (joinComma [writeField t, writeField v, writeField c] ++ "\r\n").data = _
    rw [joinComma, joinComma, joinComma]
    simp [String.data_append, List.append_assoc]
  rw [hdata]
  simp only [List.append_assoc, List.cons_append, List.nil_append]
  rw [csvScan_field_comma, csvScan_field_comma,
    csvScan_field_crlf _ _ _ (by simp)]
  rfl

theorem parse_as_csv (E : List IOC) :
    parseCsvRecords (as_csv E)
      = ["Type", "Value", "Context"] :: E.map (fun i => [i.type, i.value, i.context]) := by
  have hrows : ∀ (L : List IOC), csvScan QState.normal [] []
      ((strConcat (L.map (fun i => writeRow [i.type, i.value, i.context]))).data)
      = L.map (fun i => [i.type, i.value, i.context]) := by
    intro L
    induction L with
    | nil => rfl
    | cons i L ih =>
      rw [List.map_cons, strConcat, String.data_append, csvScan_row, ih, List.map_cons]
  rw [parseCsvRecords, as_csv, String.data_append, csvScan_row, hrows]

theorem rowToIOC_header (t v c : String) :
    rowToIOC ["Type", "Value", "Context"] [t, v, c] = some (mkIOC t v c) := rfl

theorem collectRows_map (E : List IOC) :
    collectRows ["Type", "Value", "Context"]
        (E.map (fun i => [i.type, i.value, i.context]))
      = E.map (fun i => mkIOC i.type i.value i.context) := by
  induction E with
  | nil => rfl
  | cons i E ih =>
    rw [List.map_cons, collectRows, rowToIOC_header, ih, List.map_cons]

/-! ### The claims -/

/-- Modelled from the spec, section 4.2, for comparison with the merge pass:
a singleton group is kept unchanged; a group with more members yields one
entity with the first member's kind and value, whose context is the
non-empty, trimmed contexts of all group members joined with the separator in
original encounter order (empty contexts dropped). -/
def specGroupMerge : List IOC → IOC
  | [] => dummyIOC
  | [i] => i
  | i :: j :: rest =>
    ⟨i.type, i.value,
      joinSep (((i :: j :: rest).map (fun x => pstrip x.context)).filter
        (fun s => s != ""))⟩

/-- C1: for every entity sequence and every value occurring in it, the merge
pass maps the group of entities sharing that value to exactly one output
entity: a singleton group is kept unchanged, and a larger group yields the
first member's kind together with the non-empty trimmed contexts of all group
members joined in encounter order, empty contexts dropped. -/
theorem claim1_group_merge (l : List IOC) (v : String)
    (h : v ∈ l.map (fun i => i.value)) :
    (deduplicate_and_combine_context l).filter (fun i => i.value == v)
      = [specGroupMerge (l.filter (fun i => i.value == v))] := by
  have hperm : List.Perm
      ((deduplicate_and_combine_context l).filter (fun i => i.value == v))
      ((reps l).filter (fun i => i.value == v)) :=
    (sortByType_perm (reps l)).filter _
  rw [reps_filter_value h] at hperm
  rw [List.perm_singleton.mp hperm]
  show [mergedOf l v] = [specGroupMerge (valueGroup l v)]
  congr 1
  rw [mergedOf]
  cases hg : valueGroup l v with
  | nil => exact absurd hg (valueGroup_ne_nil h)
  | cons i rest =>
    cases rest with
    | nil => rfl
    | cons j rest2 => rfl

/-- C1 witness: the kind tie-break example of the spec — same value seen
first as kind ip with context x and then as kind domain with context y merges
to the first-encountered kind and the context join in encounter order. -/
theorem claim1_witness :
    (deduplicate_and_combine_context
        [⟨"ip", "1.1.1.1", "x"⟩, ⟨"domain", "1.1.1.1", "y"⟩]).filter
        (fun i => i.value == "1.1.1.1")
      = [specGroupMerge ([⟨"ip", "1.1.1.1", "x"⟩,
          ⟨"domain", "1.1.1.1", "y"⟩].filter (fun i => i.value == "1.1.1.1"))] :=
  claim1_group_merge [⟨"ip", "1.1.1.1", "x"⟩, ⟨"domain", "1.1.1.1", "y"⟩]
    "1.1.1.1" (by decide)

/-- C2 counterexample: a two-chunk run in which both chunks extract entities
executes the merge pass twice — once after every chunk — and not exactly
once. -/
theorem claim2_counterexample :
    (generate [] [PyResult.ok (some [⟨"ip", "1.2.3.4", "a"⟩]),
        PyResult.ok (some [⟨"domain", "x.com", "b"⟩])]).mergeRuns = 2
    ∧ (2 : Nat) ≠ 1 := by
  constructor
  · decide
  · decide

/-- C2 (amended): in a fault-free multi-chunk run the merge pass executes
incrementally — exactly once per chunk whose extraction returned a validated
non-empty structured output — not once at the end of the run. -/
theorem claim2_amended_merge_per_chunk
    (chunks : List (PyResult (Option (List IOC))))
    (h : ∀ b ∈ chunks, backendOk b = true) :
    (generate [] chunks).mergeRuns = (chunks.filter isExtracted).length := by
  have hrun := generate_ok_run chunks [] h
  rw [show deduplicate_and_combine_context ([] : List IOC) = [] from rfl] at hrun
  rw [hrun]

/-- C2 witness: the amended count at a concrete three-chunk run with one
validation fault. -/
theorem claim2_witness :
    (generate [] [PyResult.ok (some [⟨"ip", "1.2.3.4", "a"⟩]),
        PyResult.exn (PyExn.validationError "bad"),
        PyResult.ok (some [⟨"domain", "x.com", "b"⟩])]).mergeRuns
      = ([PyResult.ok (some [⟨"ip", "1.2.3.4", "a"⟩]),
          PyResult.exn (PyExn.validationError "bad"),
          PyResult.ok (some [⟨"domain", "x.com", "b"⟩])].filter isExtracted).length :=
  claim2_amended_merge_per_chunk _ (by decide)

/-- C3: the merge pass output has at most one entity per distinct value (no
two output entities share a value), is sorted ascending by kind, and the sort
is stable: for every kind, the entities of that kind appear exactly as in the
pre-sort representative list. -/
theorem claim3_merge_invariants (l : List IOC) :
    (deduplicate_and_combine_context l).Pairwise (fun a b => a.type ≤ b.type)
    ∧ (deduplicate_and_combine_context l).Pairwise (fun a b => a.value ≠ b.value)
    ∧ ∀ k, (deduplicate_and_combine_context l).filter (fun i => i.type == k)
        = (reps l).filter (fun i => i.type == k) := by
  refine ⟨sortByType_sorted _, ?_, fun k => sortByType_filter _ k⟩
  have hnd := dedup_values_nodup l
  rw [List.Nodup, List.pairwise_map] at hnd
  exact hnd

/-- C4 counterexample: value normalization is not idempotent on all strings —
one pass over this input reassembles a defanging pattern that a second pass
then replaces. -/
theorem claim4_counterexample :
    normalize_value (normalize_value "[[.]]") ≠ normalize_value "[[.]]" := by
  decide

/-- C4 (amended): applying the six-substitution value normalization twice
agrees with applying it once for every string whose once-normalized form
contains no occurrence of any of the six defanging patterns; the unrestricted
claim fails because a single pass can reassemble a pattern. -/
theorem claim4_amended_normalize_idempotent (s : String)
    (h : ∀ p ∈ defangPatterns, ¬ (p.data <:+: (normalize_value s).data)) :
    normalize_value (normalize_value s) = normalize_value s := by
  have h1 := h "[.]" (by simp [defangPatterns])
  have h2 := h "[:]" (by simp [defangPatterns])
  have h3 := h "hxxp://" (by simp [defangPatterns])
  have h4 := h "hxxps://" (by simp [defangPatterns])
  have h5 := h "hXXp://" (by simp [defangPatterns])
  have h6 := h "hXXps://" (by simp [defangPatterns])
  show pyReplace (pyReplace (pyReplace (pyReplace (pyReplace (pyReplace (normalize_value s)
      "[.]" ".") "[:]" ":") "hxxp://" "http://") "hxxps://" "https://") "hXXp://" "http://")
      "hXXps://" "https://" = normalize_value s
  rw [pyReplace_of_no_occurrence _ h1, pyReplace_of_no_occurrence _ h2, pyReplace_of_no_occurrence _ h3,
    pyReplace_of_no_occurrence _ h4, pyReplace_of_no_occurrence _ h5, pyReplace_of_no_occurrence _ h6]

/-- C4 witness: the spec's own example normalizes to a stable string, so
normalizing it twice equals normalizing it once. -/
theorem claim4_witness :
    normalize_value (normalize_value "192[.]168[.]1[.]1")
      = normalize_value "192[.]168[.]1[.]1" :=
  claim4_amended_normalize_idempotent "192[.]168[.]1[.]1" (by decide)

/-- C5 counterexample: two entities with the same value but different kinds
and contexts — a permutation of the input changes the merged kind and the
context join order, so the two merge results are not the same set even up to
tie order. -/
theorem claim5_counterexample :
    List.Perm [(⟨"ip", "1.1.1.1", "x"⟩ : IOC), ⟨"domain", "1.1.1.1", "y"⟩]
        [⟨"domain", "1.1.1.1", "y"⟩, ⟨"ip", "1.1.1.1", "x"⟩]
    ∧ ¬ List.Perm
        (deduplicate_and_combine_context
          [⟨"domain", "1.1.1.1", "y"⟩, ⟨"ip", "1.1.1.1", "x"⟩])
        (deduplicate_and_combine_context
          [⟨"ip", "1.1.1.1", "x"⟩, ⟨"domain", "1.1.1.1", "y"⟩]) := by
  constructor
  · exact List.Perm.swap _ _ _
  · have hl : deduplicate_and_combine_context
        [(⟨"domain", "1.1.1.1", "y"⟩ : IOC), ⟨"ip", "1.1.1.1", "x"⟩]
        = [⟨"domain", "1.1.1.1", "y | x"⟩] := by decide
    have hr : deduplicate_and_combine_context
        [(⟨"ip", "1.1.1.1", "x"⟩ : IOC), ⟨"domain", "1.1.1.1", "y"⟩]
        = [⟨"ip", "1.1.1.1", "x | y"⟩] := by decide
    rw [hl, hr]
    intro hperm
    have := List.perm_singleton.mp hperm
    exact absurd this (by decide)

/-- C5 (amended): merging commutes with re-ordering of the input, up to the
stable-sort tie order, whenever no two input entities share a value; with
duplicated values the first-seen kind and the context join order depend on
the input order (see the counterexample). -/
theorem claim5_amended_permutation (E P : List IOC) (h1 : List.Perm E P)
    (h2 : (E.map (fun i => i.value)).Nodup) :
    List.Perm (deduplicate_and_combine_context P) (deduplicate_and_combine_context E) :=
  dedup_of_nodup_perm h1 h2

/-- C5 witness: a duplicate-free two-entity list and its transposition merge
to permutations of each other. -/
theorem claim5_witness :
    List.Perm
      (deduplicate_and_combine_context
        [⟨"ip", "1.2.3.4", "c1"⟩, ⟨"domain", "example.com", "c3"⟩])
      (deduplicate_and_combine_context
        [⟨"domain", "example.com", "c3"⟩, ⟨"ip", "1.2.3.4", "c1"⟩]) :=
  claim5_amended_permutation
    [⟨"domain", "example.com", "c3"⟩, ⟨"ip", "1.2.3.4", "c1"⟩]
    [⟨"ip", "1.2.3.4", "c1"⟩, ⟨"domain", "example.com", "c3"⟩]
    (List.Perm.swap _ _ _) (by decide)

/-- C6: in a run whose chunks raise no non-validation fault, a
schema-validation fault on a chunk contributes zero entities and does not
abort the run: progress advances exactly once per chunk, no fault escapes,
the final set is the merge of exactly the entities contributed by the
successful chunks, and every contributed entity is still represented by its
value in the final merged set. -/
theorem claim6_partial_failure_tolerance
    (chunks : List (PyResult (Option (List IOC))))
    (h : ∀ b ∈ chunks, backendOk b = true) :
    (generate [] chunks).progressAdvances = chunks.length
    ∧ (generate [] chunks).fault = none
    ∧ (generate [] chunks).iocs
        = deduplicate_and_combine_context (chunks.map chunkEntities).flatten
    ∧ ∀ b ∈ chunks, ∀ e ∈ chunkEntities b,
        ∃ o ∈ (generate [] chunks).iocs, o.value = e.value := by
  have hrun := generate_ok_run chunks [] h
  rw [show deduplicate_and_combine_context ([] : List IOC) = [] from rfl] at hrun
  rw [hrun]
  refine ⟨rfl, rfl, ?_, ?_⟩
  · show deduplicate_and_combine_context ([] ++ (chunks.map chunkEntities).flatten)
      = deduplicate_and_combine_context (chunks.map chunkEntities).flatten
    rw [List.nil_append]
  · intro b hb e he
    have hval : e.value ∈ ((chunks.map chunkEntities).flatten).map (fun i => i.value) :=
      List.mem_map.mpr ⟨e, List.mem_flatten.mpr
        ⟨chunkEntities b, List.mem_map.mpr ⟨b, hb, rfl⟩, he⟩, rfl⟩
    have hmem := dedup_map_value_mem.mpr hval
    rcases List.mem_map.mp hmem with ⟨o, ho, hov⟩
    exact ⟨o, ho, hov⟩

/-- C6 witness: a three-chunk run whose middle chunk fails schema validation
still advances three times, keeps the entities of chunks one and three, and
ends with no fault. -/
theorem claim6_witness :
    (generate [] [PyResult.ok (some [⟨"ip", "10.0.0.1", "ctx1"⟩]),
        PyResult.exn (PyExn.validationError "bad"),
        PyResult.ok (some [⟨"ip", "10.0.0.1", "ctx2"⟩])]).progressAdvances = 3
    ∧ (generate [] [PyResult.ok (some [⟨"ip", "10.0.0.1", "ctx1"⟩]),
        PyResult.exn (PyExn.validationError "bad"),
        PyResult.ok (some [⟨"ip", "10.0.0.1", "ctx2"⟩])]).fault = none
    ∧ (generate [] [PyResult.ok (some [⟨"ip", "10.0.0.1", "ctx1"⟩]),
        PyResult.exn (PyExn.validationError "bad"),
        PyResult.ok (some [⟨"ip", "10.0.0.1", "ctx2"⟩])]).iocs
      = [⟨"ip", "10.0.0.1", "ctx1 | ctx2"⟩] := by
  have h := claim6_partial_failure_tolerance
    [PyResult.ok (some [⟨"ip", "10.0.0.1", "ctx1"⟩]),
      PyResult.exn (PyExn.validationError "bad"),
      PyResult.ok (some [⟨"ip", "10.0.0.1", "ctx2"⟩])] (by decide)
  refine ⟨h.1, h.2.1, ?_⟩
  rw [h.2.2.1]
  decide

/-- C7: the structured extractor converts a schema-validation fault of the
backend into the returned sentinel `None` and never re-raises it, while every
non-validation backend fault propagates unchanged to the caller, and a
validated backend result passes through unchanged. -/
theorem claim7_invoke_model_faults (b : PyResult (Option (List IOC))) :
    (∀ m, invoke_model b ≠ PyResult.exn (PyExn.validationError m))
    ∧ (∀ m, b = PyResult.exn (PyExn.validationError m) →
        invoke_model b = PyResult.ok none)
    ∧ (∀ e, b = PyResult.exn e → (∀ m, e ≠ PyExn.validationError m) →
        invoke_model b = PyResult.exn e)
    ∧ (∀ v, b = PyResult.ok v → invoke_model b = PyResult.ok v) := by
  cases b with
  | ok v =>
    refine ⟨fun m hcon => PyResult.noConfusion hcon,
      fun m hcon => PyResult.noConfusion hcon,
      fun e hcon _ => PyResult.noConfusion hcon,
      fun v2 hv => hv⟩
  | exn e =>
    cases e with
    | validationError m =>
      refine ⟨fun m2 hcon => PyResult.noConfusion hcon,
        fun m2 _ => rfl,
        fun e2 heq h2 => ?_,
        fun v hcon => PyResult.noConfusion hcon⟩
      · cases heq
        exact absurd rfl (h2 m)
    | otherError m =>
      refine ⟨fun m2 hcon => PyExn.noConfusion (PyResult.exn.inj hcon),
        fun m2 hcon => PyExn.noConfusion (PyResult.exn.inj hcon),
        fun e2 heq _ => ?_,
        fun v hcon => PyResult.noConfusion hcon⟩
      · cases heq
        rfl

/-- C7 witness: a validation fault becomes the sentinel, a backend fault
propagates unchanged. -/
theorem claim7_witness :
    invoke_model (PyResult.exn (PyExn.validationError "boom")) = PyResult.ok none
    ∧ invoke_model (PyResult.exn (PyExn.otherError "down"))
        = PyResult.exn (PyExn.otherError "down") :=
  ⟨(claim7_invoke_model_faults (PyResult.exn (PyExn.validationError "boom"))).2.1
      "boom" rfl,
    (claim7_invoke_model_faults (PyResult.exn (PyExn.otherError "down"))).2.2.1
      (PyExn.otherError "down") rfl (fun m hcon => PyExn.noConfusion hcon)⟩

/-- C8: serializing an entity list produces the header row followed by one
csv row per entity in list order, and importing that output back through the
csv import (case-insensitive header matching) yields the merge of the
re-normalized entities — the original set up to post-normalization. -/
theorem claim8_csv_roundtrip (E : List IOC) :
    as_csv E = "Type,Value,Context\r\n"
        ++ strConcat (E.map (fun i => writeRow [i.type, i.value, i.context]))
    ∧ extend_from_csv [] (as_csv E)
        = deduplicate_and_combine_context
            (E.map (fun i => mkIOC i.type i.value i.context)) := by
  constructor
  · rw [as_csv]
    congr 1
  · show deduplicate_and_combine_context ([] ++ csvEntities (as_csv E)) = _
    rw [List.nil_append]
    congr 1
    rw [csvEntities, parse_as_csv]
    exact collectRows_map E

/-- C9: the merge pass is idempotent — applying it twice gives exactly the
result of applying it once. -/
theorem claim9_merge_idempotent (l : List IOC) :
    deduplicate_and_combine_context (deduplicate_and_combine_context l)
      = deduplicate_and_combine_context l := by
  have h := dedup_dedup_append l []
  rwa [List.append_nil, List.append_nil] at h

/-- C10: the implemented incremental strategy — append each chunk's entities
to the running set and re-run the merge pass after every chunk — produces
exactly the same final entity list as accumulating all chunks in document
order and merging once at the end. -/
theorem claim10_incremental_refinement (chunks : List (List IOC)) :
    chunks.foldl (fun acc c => deduplicate_and_combine_context (acc ++ c)) []
      = deduplicate_and_combine_context chunks.flatten := by
  have main : ∀ (cs : List (List IOC)) (acc : List IOC),
      cs.foldl (fun acc c => deduplicate_and_combine_context (acc ++ c))
        (deduplicate_and_combine_context acc)
      = deduplicate_and_combine_context (acc ++ cs.flatten) := by
    intro cs
    induction cs with
    | nil =>
      intro acc
      rw [List.foldl_nil, List.flatten_nil, List.append_nil]
    | cons c cs ih =>
      intro acc
      rw [List.foldl_cons, dedup_dedup_append, ih (acc ++ c), List.flatten_cons,
        List.append_assoc]
  have h := main chunks []
  rwa [show deduplicate_and_combine_context ([] : List IOC) = [] from rfl,
    List.nil_append] at h

end Thsensai
